import Mathlib

/-!
Verification of the scoring, ranking, classification and history-tracking
core of the ai-repo-insights pipeline.

Strings are modelled as lists of characters (`Str`), with ASCII case
folding standing in for `strings.ToLower` and the Go whitespace set for
`strings.Fields`.  Go `int` values are modelled as `Int`, and the
`float64` score arithmetic is modelled exactly over `ℚ` with truncation
toward zero for the final `int(...)` conversion.  Go maps used as
key-value stores (`History.History`) are modelled extensionally as
functions to `Option`; Go maps that are *iterated* (the category map of
the keyword configuration) are modelled as association lists whose order
represents one possible iteration order, since Go's map iteration order
is unspecified.
-/

/-- Character-list strings, the model of Go `string` values. -/
abbrev Str : Type := List Char

/-- Conversion from Lean string literals into the `Str` model. -/
def str (s : String) : Str := s.data

/-- ASCII case folding for a single character, the model of the case
folding performed by `strings.ToLower`. -/
def toLowerCh (c : Char) : Char :=
  if 'A' ≤ c ∧ c ≤ 'Z' then Char.ofNat (c.toNat + 32) else c

/-- Lowercase an entire string, the model of `strings.ToLower`. -/
def toLowerStr (s : Str) : Str := s.map toLowerCh

/-- The white-space set used by Go's `strings.Fields`
(`unicode.IsSpace`). -/
def goIsSpace (c : Char) : Bool :=
  c = ' ' ∨ c = '\t' ∨ c = '\n' ∨ c = Char.ofNat 0x0B ∨ c = Char.ofNat 0x0C ∨
  c = '\r' ∨ c = Char.ofNat 0x85 ∨ c = Char.ofNat 0xA0 ∨
  c = Char.ofNat 0x1680 ∨ (Char.ofNat 0x2000 ≤ c ∧ c ≤ Char.ofNat 0x200A) ∨
  c = Char.ofNat 0x2028 ∨ c = Char.ofNat 0x2029 ∨ c = Char.ofNat 0x202F ∨
  c = Char.ofNat 0x205F ∨ c = Char.ofNat 0x3000

/-- Accumulator-based splitting of a string into maximal runs of
non-space characters. -/
def fieldsAux : Str → Str → List Str
  | [], acc => if acc.isEmpty then [] else [acc.reverse]
  | c :: cs, acc =>
    if goIsSpace c then
      if acc.isEmpty then fieldsAux cs [] else acc.reverse :: fieldsAux cs []
    else
      fieldsAux cs (c :: acc)

/-- Model of Go's `strings.Fields`: split around runs of white space. -/
def fields (s : Str) : List Str := fieldsAux s []

/-- The punctuation cutset `".,;:!?()[]\x7b\x7d\"'"` trimmed from tokens
by `matchesKeyword`. -/
def punctCutset : Str :=
  ['.', ',', ';', ':', '!', '?', '(', ')', '[', ']',
   Char.ofNat 123, Char.ofNat 125, Char.ofNat 34, Char.ofNat 39]

/-- Model of `strings.Trim`: remove leading and trailing characters that
belong to the cutset. -/
def trimCutset (cut : Str) (w : Str) : Str :=
  ((w.dropWhile (fun c => cut.contains c)).reverse.dropWhile
    (fun c => cut.contains c)).reverse

/-- Substring containment test, the model of `strings.Contains`. -/
def containsSub (t sub : Str) : Bool :=
  t.tails.any (fun suffix => sub.isPrefixOf suffix)

/-- Model of `RepoMetadata` (internal/models): the raw scraped facts
about one repository.  `createdAt` is an abstract integer timestamp. -/
structure RepoMetadata where
  owner : Str
  name : Str
  url : Str
  description : Str
  language : Str
  topics : List Str
  stars : Int
  forks : Int
  starsToday : Int
  starsThisWeek : Int
  starsThisMonth : Int
  createdAt : Int
deriving DecidableEq, Repr

/-- Repository key `owner ++ "/" ++ name`, the join key used
everywhere. -/
def RepoMetadata.key (r : RepoMetadata) : Str := r.owner ++ [Char.ofNat 47] ++ r.name

/-- Model of `ClassifiedRepo` (internal/models). -/
structure ClassifiedRepo where
  metadata : RepoMetadata
  categories : List Str
  primaryCategory : Str
  matchScore : Int
deriving DecidableEq, Repr

/-- Key of a classified repository. -/
def ClassifiedRepo.key (c : ClassifiedRepo) : Str := c.metadata.key

/-- Model of `ScoredRepo` (internal/models). -/
structure ScoredRepo where
  repo : ClassifiedRepo
  totalStars : Int
  heat7 : Int
  heat30 : Int
  prev30 : Int
  score : Int
deriving DecidableEq, Repr

/-- Key of a scored repository. -/
def ScoredRepo.key (s : ScoredRepo) : Str := s.repo.key

/-- Model of `config.KeywordConfig`.  The Go field `Categories` is a
`map[string][]string`; it is modelled as an association list whose
order stands for one iteration order of the map. -/
structure KeywordConfig where
  Include : List Str
  Exclude : List Str
  Categories : List (Str × List Str)
deriving DecidableEq, Repr

/-- Model of `classifier.matchesKeyword`: hyphenated keywords match by
substring containment, single-word keywords by token comparison after
trimming punctuation, with naive plural and (for keywords of length at
least 4) prefix-stem matching. -/
def matchesKeyword (text keyword : Str) : Bool :=
  if (toLowerStr keyword).contains '-' then
    containsSub (toLowerStr text) (toLowerStr keyword)
  else
    (fields (toLowerStr text)).any fun w0 =>
      trimCutset punctCutset w0 = toLowerStr keyword ||
      trimCutset punctCutset w0 = toLowerStr keyword ++ ['s'] ||
      (decide (4 ≤ (toLowerStr keyword).length) &&
        (toLowerStr keyword).isPrefixOf (trimCutset punctCutset w0))

/-- Model of `classifier.buildSearchText`: name, description and topics
joined with spaces and lowercased. -/
def buildSearchText (r : RepoMetadata) : Str :=
  toLowerStr (List.intercalate [' '] ([r.name, r.description] ++ r.topics))

/-- Model of `classifier.matchesInclude`. -/
def matchesInclude (kw : KeywordConfig) (r : RepoMetadata) : Bool :=
  kw.Include.any (fun k => matchesKeyword (buildSearchText r) k)

/-- Model of `classifier.matchesExclude`. -/
def matchesExclude (kw : KeywordConfig) (r : RepoMetadata) : Bool :=
  kw.Exclude.any (fun k => matchesKeyword (buildSearchText r) k)

/-- Model of `classifier.assignCategories`: every category one of whose
keywords matches the search text, each added once, in the given
iteration order of the category map. -/
def assignCategories (kw : KeywordConfig) (r : RepoMetadata) : List Str :=
  kw.Categories.filterMap fun p =>
    if p.2.any (fun k => matchesKeyword (buildSearchText r) k) then some p.1 else none

/-- Keyword list registered for a category name, the model of indexing
the Go category map. -/
def lookupCat (cats : List (Str × List Str)) (name : Str) : List Str :=
  ((cats.find? (fun p => p.1 = name)).map Prod.snd).getD []

/-- Model of `classifier.selectPrimaryCategory`: the assigned category
with the strictly largest number of keyword matches wins; the running
maximum starts at 0 with the first assigned category as default. -/
def selectPrimaryCategory (kw : KeywordConfig) (r : RepoMetadata)
    (categories : List Str) : Str :=
  match categories with
  | [] => []
  | c0 :: _ =>
    (categories.foldl
      (fun acc categoryName =>
        let hits :=
          (lookupCat kw.Categories categoryName).countP
            (fun k => matchesKeyword (buildSearchText r) k)
        if acc.1 < hits then (hits, categoryName) else acc)
      ((0 : Nat), c0)).2

/-- Model of `classifier.calculateMatchScore`: total keyword hits over
the include list and all category keyword lists. -/
def calculateMatchScore (kw : KeywordConfig) (r : RepoMetadata) : Int :=
  ((kw.Include.countP (fun k => matchesKeyword (buildSearchText r) k)) : Int) +
  ((kw.Categories.map
      (fun p => p.2.countP (fun k => matchesKeyword (buildSearchText r) k))).sum : Int)

/-- Model of `Classifier.Classify`: keep, in input order, exactly the
repositories that match an include keyword and no exclude keyword, and
wrap them with their category assignment. -/
def classify (kw : KeywordConfig) (repos : List RepoMetadata) : List ClassifiedRepo :=
  repos.filterMap fun repo =>
    if matchesInclude kw repo && !matchesExclude kw repo then
      some
        { metadata := repo
          categories := assignCategories kw repo
          primaryCategory := selectPrimaryCategory kw repo (assignCategories kw repo)
          matchScore := calculateMatchScore kw repo }
    else none

/-- Truncation toward zero of a rational, the model of Go's `int(x)`
conversion from `float64`. -/
def ratTrunc (q : ℚ) : ℤ := if 0 ≤ q then ⌊q⌋ else ⌈q⌉

/-- Exact value of the composite score expression
`dailyRate*0.6 + weeklyAvgRate*0.3 + monthlyAvgRate*0.1` computed in
`calculator.CalculateScores`, with the `float64` arithmetic modelled
exactly over `ℚ`. -/
def scoreValue (today week month : Int) : ℚ :=
  (today : ℚ) * 0.6 + ((week : ℚ) / 7) * 0.3 + ((month : ℚ) / 30) * 0.1

/-- Model of `calculator.CalculateScores`: pass the weekly and monthly
counters through as `heat7`/`heat30` and attach the truncated composite
score. -/
def calculateScores (repos : List ClassifiedRepo) : List ScoredRepo :=
  repos.map fun repo =>
    { repo := repo
      totalStars := repo.metadata.stars
      heat7 := repo.metadata.starsThisWeek
      heat30 := repo.metadata.starsThisMonth
      prev30 := 0
      score :=
        ratTrunc (scoreValue repo.metadata.starsToday repo.metadata.starsThisWeek
          repo.metadata.starsThisMonth) }

/-- The comparison closure handed to `sort.SliceStable` in
`calculator.RankRepositories`: heat30 descending, then score
descending. -/
def rankLess (a b : ScoredRepo) : Bool :=
  if a.heat30 ≠ b.heat30 then decide (b.heat30 < a.heat30) else decide (b.score < a.score)

/-- The non-strict order induced by `rankLess`; a stable sort with
respect to `rankLess` is exactly a stable `mergeSort` by this
relation. -/
def rankLE (a b : ScoredRepo) : Bool := !(rankLess b a)

/-- Model of `calculator.RankRepositories`: stable sort of a copy of the
input by heat30 descending with ties broken by score descending. -/
def rankRepositories (l : List ScoredRepo) : List ScoredRepo :=
  l.mergeSort rankLE

/-- Model of `calculator.RankAndSelectTop`: rank and keep the first
`topN` entries, or everything when the input is shorter. -/
def rankAndSelectTop (l : List ScoredRepo) (topN : Nat) : List ScoredRepo :=
  let ranked := rankRepositories l
  if ranked.length > topN then ranked.take topN else ranked

/-- Model of `models.RepoHistory`: the persistent per-key streak
record. -/
structure RepoHistory where
  weeksInTop : Int
  lastSeenReport : Str
  lastSeenDate : Str
  firstSeenReport : Str
  firstSeenDate : Str
deriving DecidableEq, Repr

/-- Model of `models.History`.  The Go map `History` is modelled
extensionally as a function from repo keys to optional records. -/
structure History where
  latestReport : Str
  history : Str → Option RepoHistory

/-- Model of `models.NewHistory`: empty map, empty latest report. -/
def newHistory : History := ⟨[], fun _ => none⟩

/-- One iteration of the update loop of `Manager.UpdateHistory`: bump an
existing record and refresh its last-seen fields, or insert a fresh
record with `weeksInTop = 1`. -/
def applyRepo (reportID reportDate : Str) (hm : Str → Option RepoHistory)
    (repo : ScoredRepo) : Str → Option RepoHistory := fun k =>
  if k = repo.key then
    match hm repo.key with
    | some e =>
        some { e with
                weeksInTop := e.weeksInTop + 1
                lastSeenReport := reportID
                lastSeenDate := reportDate }
    | none => some ⟨1, reportID, reportDate, reportID, reportDate⟩
  else hm k

/-- The pure state transformation of `Manager.UpdateHistory` applied to
the loaded history: update or insert every repo of the current top,
remove every key absent from the current top, and set the latest report
ID. -/
def updateHistory (h : History) (currentTop : List ScoredRepo)
    (reportID reportDate : Str) : History :=
  let updated := currentTop.foldl (applyRepo reportID reportDate) h.history
  { latestReport := reportID
    history := fun k => if k ∈ currentTop.map ScoredRepo.key then updated k else none }

/-- A sequence of history-manager update cycles, each given the current
top list, report ID and report date. -/
def runUpdates (h : History) (steps : List (List ScoredRepo × Str × Str)) : History :=
  steps.foldl (fun acc s => updateHistory acc s.1 s.2.1 s.2.2) h

/-- Whether a list of date strings is non-decreasing. -/
def datesMonoB : List Str → Bool
  | [] => true
  | [_] => true
  | a :: b :: rest => decide (a ≤ b) && datesMonoB (b :: rest)

/-- The observable state of the history file as seen by
`Manager.LoadHistory`: missing, unreadable, unparsable, or parsed into a
latest-report ID and an optional (possibly `nil`) map. -/
inductive FileState where
  | absent
  | unreadable
  | parseFailure
  | parsed (latestReport : Str) (histMap : Option (Str → Option RepoHistory))

/-- Model of `Manager.LoadHistory`: a missing file yields a fresh empty
history, a read failure or parse failure yields an error, and a parsed
file is returned with a `nil` map normalised to the empty map. -/
def loadHistory : FileState → Except Str History
  | .absent => .ok newHistory
  | .unreadable => .error (str "failed to read history file")
  | .parseFailure => .error (str "failed to parse history file")
  | .parsed lr m => .ok ⟨lr, m.getD (fun _ => none)⟩

/-- Model of `models.RepeaterInfo`. -/
structure RepeaterInfo where
  repoKey : Str
  repoName : Str
  url : Str
  weeksInTop : Int
  currentHeat7 : Int
  category : Str
deriving DecidableEq, Repr

/-- The repeater record emitted by `Builder.identifyRepeaters` for one
repository and its history entry. -/
def repeaterInfoOf (repo : ScoredRepo) (e : RepoHistory) : RepeaterInfo :=
  { repoKey := repo.key
    repoName := repo.repo.metadata.name
    url := repo.repo.metadata.url
    weeksInTop := e.weeksInTop
    currentHeat7 := repo.heat7
    category := repo.repo.primaryCategory }

/-- Model of `Builder.identifyRepeaters`: emit, in input order, every
top repo whose history entry exists and has `weeksInTop >= 2`. -/
def identifyRepeaters (repos : List ScoredRepo) (h : History) : List RepeaterInfo :=
  repos.filterMap fun repo =>
    match h.history repo.key with
    | some e => if 2 ≤ e.weeksInTop then some (repeaterInfoOf repo e) else none
    | none => none

/-- A heap of Go slices of scored repositories, used to state frame
properties of the ranking functions.  A slot index models a slice
header pointing at its backing array. -/
structure GoHeap where
  slots : List (List ScoredRepo)

/-- Contents of a slot. -/
def readSlot (h : GoHeap) (p : Nat) : List ScoredRepo := (h.slots[p]?).getD []

/-- Allocation of a fresh slot holding `v` (the `make` + `copy` pair),
returning the new heap and the fresh slot index. -/
def allocSlot (h : GoHeap) (v : List ScoredRepo) : GoHeap × Nat :=
  (⟨h.slots ++ [v]⟩, h.slots.length)

/-- In-place overwrite of a slot (the effect of `sort.SliceStable`). -/
def writeSlot (h : GoHeap) (p : Nat) (v : List ScoredRepo) : GoHeap :=
  ⟨h.slots.set p v⟩

/-- Heap-level model of `calculator.RankRepositories`: allocate a copy
of the input slice, sort the copy in place, and return its slot. -/
def rankRepositoriesGo (h : GoHeap) (p : Nat) : GoHeap × Nat :=
  let alloc := allocSlot h (readSlot h p)
  let h2 := writeSlot alloc.1 alloc.2 ((readSlot alloc.1 alloc.2).mergeSort rankLE)
  (h2, alloc.2)

/-- Heap-level model of `calculator.RankAndSelectTop`: rank, then return
the (view of the) first `topN` entries of the ranked slice. -/
def rankAndSelectTopGo (h : GoHeap) (p : Nat) (topN : Nat) : GoHeap × List ScoredRepo :=
  let ranked := rankRepositoriesGo h p
  let out := readSlot ranked.1 ranked.2
  (ranked.1, if out.length > topN then out.take topN else out)

/-- A minimal repository record used for concrete test inputs. -/
def mkMeta (owner name : Str) (today week month : Int) : RepoMetadata :=
  ⟨owner, name, [], [], [], [], 0, 0, today, week, month, 0⟩

/-- A minimal scored repository used for concrete test inputs. -/
def mkScored (owner name : Str) (heat30 score : Int) : ScoredRepo :=
  ⟨⟨mkMeta owner name 0 0 0, [], [], 0⟩, 0, 0, heat30, 0, score⟩

/-- Keyword configuration of the classifier example:
include `ai`, exclude `tutorial`, no categories. -/
def cfgAI : KeywordConfig := ⟨[str "ai"], [str "tutorial"], []⟩

/-- A repository named `ai-tutorial` with no other matching text. -/
def repoAI : RepoMetadata := mkMeta (str "o") (str "ai-tutorial") 0 0 0

/-- Keyword configuration with two categories carrying the same keyword,
enumerated in declared order. -/
def cfgCatA : KeywordConfig :=
  ⟨[str "agent"], [], [(str "cat-a", [str "agent"]), (str "cat-b", [str "agent"])]⟩

/-- The same keyword configuration with the category map enumerated in
the opposite order. -/
def cfgCatB : KeywordConfig :=
  ⟨[str "agent"], [], [(str "cat-b", [str "agent"]), (str "cat-a", [str "agent"])]⟩

/-- A repository whose search text matches the keyword `agent` once per
category. -/
def repoAgent : RepoMetadata := mkMeta (str "o") (str "agent") 0 0 0

/-- The classified repository of the score example
(`starsToday=100, starsThisWeek=350, starsThisMonth=900`). -/
def repoScoreEx : ClassifiedRepo := ⟨mkMeta (str "o") (str "n") 100 350 900, [], [], 0⟩

/-- The scored repository of the history example, with key
`owner1/repo1`. -/
def scoredOwner1 : ScoredRepo := mkScored (str "owner1") (str "repo1") 1000 0

/-- A scored repository used to build duplicate-key inputs. -/
def scoredDup : ScoredRepo := mkScored (str "o") (str "n") 0 0

/-- Two scored repositories with equal heat30 and score. -/
def sEqA : ScoredRepo := mkScored (str "o") (str "a") 5 7

/-- Second repository of the equal-key pair. -/
def sEqB : ScoredRepo := mkScored (str "o") (str "b") 5 7

/-- Two update cycles over the same top list with non-decreasing report
dates. -/
def stepsGood : List (List ScoredRepo × Str × Str) :=
  [([scoredOwner1], str "r1", str "2024-01-07"),
   ([scoredOwner1], str "r2", str "2024-01-14")]

/-- Two update cycles over the same top list with a decreasing report
date. -/
def stepsBad : List (List ScoredRepo × Str × Str) :=
  [([scoredOwner1], str "r1", str "2024-02-02"),
   ([scoredOwner1], str "r2", str "2024-01-01")]

/-- A history in which the key `o/a` has been in the top for three
consecutive runs. -/
def histW : History :=
  ⟨str "r0", fun k =>
    if k = str "o/a" then
      some ⟨3, str "r0", str "2024-01-07", str "rX", str "2024-01-01"⟩
    else none⟩

/-- A scored repository carrying the key `o/a`. -/
def sRep : ScoredRepo := mkScored (str "o") (str "a") 10 5

/-- A one-slot heap used for the frame-property witness. -/
def heapW : GoHeap := ⟨[[sEqA, sEqB]]⟩

theorem rankLE_iff (a b : ScoredRepo) :
    rankLE a b = true ↔
      (b.heat30 < a.heat30 ∨ (b.heat30 = a.heat30 ∧ b.score ≤ a.score)) := by
  unfold rankLE rankLess
  by_cases h : b.heat30 = a.heat30 <;> (simp [h]; try omega)

theorem rankLE_trans (a b c : ScoredRepo) (hab : rankLE a b = true)
    (hbc : rankLE b c = true) : rankLE a c = true := by
  rw [rankLE_iff] at hab hbc ⊢
  omega

theorem rankLE_total (a b : ScoredRepo) : (rankLE a b || rankLE b a) = true := by
  rw [Bool.or_eq_true, rankLE_iff, rankLE_iff]
  omega

/-- C2: `RankAndSelectTop` returns the stable sort of the input by
heat30 descending with ties broken by score descending, truncated to the
first `topN` elements: the output has length `min topN (input length)`,
equals the ranked list truncated to `topN`, the ranked list is a
permutation of the input, the output is sorted non-increasingly in the
lexicographic `(heat30, score)` order, and two repos with equal
`(heat30, score)` keep their relative input order in the ranked list. -/
theorem rankAndSelectTop_spec (l : List ScoredRepo) (n : Nat) :
    (rankAndSelectTop l n).length = min n l.length
    ∧ rankAndSelectTop l n = (rankRepositories l).take n
    ∧ (rankRepositories l).Perm l
    ∧ (rankAndSelectTop l n).Pairwise
        (fun a b => b.heat30 < a.heat30 ∨ (b.heat30 = a.heat30 ∧ b.score ≤ a.score))
    ∧ (∀ a b : ScoredRepo, a.heat30 = b.heat30 → a.score = b.score →
        [a, b].Sublist l → [a, b].Sublist (rankRepositories l)) := by
  have htake : rankAndSelectTop l n = (rankRepositories l).take n := by
    unfold rankAndSelectTop
    by_cases hlen : (rankRepositories l).length > n
    · simp [hlen]
    · simp only [hlen, if_false]
      rw [List.take_of_length_le (by omega)]
  have hperm : (rankRepositories l).Perm l := List.mergeSort_perm l rankLE
  refine ⟨?_, htake, hperm, ?_, ?_⟩
  · rw [htake, List.length_take, hperm.length_eq]
  · have hsorted : (rankRepositories l).Pairwise (fun a b => rankLE a b = true) :=
      List.sorted_mergeSort rankLE_trans rankLE_total l
    rw [htake]
    exact ((hsorted.sublist (List.take_sublist n _)).imp (fun h => (rankLE_iff _ _).mp h))
  · intro a b h30 hsc hsub
    refine List.pair_sublist_mergeSort rankLE_trans rankLE_total ?_ hsub
    rw [rankLE_iff]
    exact Or.inr ⟨h30.symm, le_of_eq hsc.symm⟩

/-- Witness for C2 at a concrete input: two repos with equal
`(heat30, score)` keep their input order through the ranking. -/
theorem rankAndSelectTop_spec_witness :
    [sEqA, sEqB].Sublist (rankRepositories [sEqA, sEqB]) :=
  (rankAndSelectTop_spec [sEqA, sEqB] 2).2.2.2.2 sEqA sEqB rfl rfl (List.Sublist.refl _)

theorem ratTrunc_eq_floor_of_nonneg (q : ℚ) (h : 0 ≤ q) : ratTrunc q = ⌊q⌋ := by
  simp [ratTrunc, h]

theorem scoreValue_nonneg (t w m : Int) (ht : 0 ≤ t) (hw : 0 ≤ w) (hm : 0 ≤ m) :
    0 ≤ scoreValue t w m := by
  have ht' : (0 : ℚ) ≤ (t : ℚ) := by exact_mod_cast ht
  have hw' : (0 : ℚ) ≤ (w : ℚ) := by exact_mod_cast hw
  have hm' : (0 : ℚ) ≤ (m : ℚ) := by exact_mod_cast hm
  unfold scoreValue
  have c1 : (0 : ℚ) ≤ (t : ℚ) * 0.6 := mul_nonneg ht' (by norm_num)
  have c2 : (0 : ℚ) ≤ ((w : ℚ) / 7) * 0.3 :=
    mul_nonneg (div_nonneg hw' (by norm_num)) (by norm_num)
  have c3 : (0 : ℚ) ≤ ((m : ℚ) / 30) * 0.1 :=
    mul_nonneg (div_nonneg hm' (by norm_num)) (by norm_num)
  exact add_nonneg (add_nonneg c1 c2) c3

/-- C3: `CalculateScores` passes the weekly and monthly counters through
unchanged as heat7 and heat30, computes the score as the truncation of
the exact composite expression, agrees with the floor form for
non-negative counters, and yields 78 on the example
`starsToday=100, starsThisWeek=350, starsThisMonth=900`. -/
theorem calculateScores_spec (repos : List ClassifiedRepo) (i : Nat) :
    (calculateScores repos).length = repos.length
    ∧ ((calculateScores repos)[i]?).map (fun s => s.heat7)
        = (repos[i]?).map (fun c => c.metadata.starsThisWeek)
    ∧ ((calculateScores repos)[i]?).map (fun s => s.heat30)
        = (repos[i]?).map (fun c => c.metadata.starsThisMonth)
    ∧ ((calculateScores repos)[i]?).map (fun s => s.score)
        = (repos[i]?).map (fun c =>
            ratTrunc (scoreValue c.metadata.starsToday c.metadata.starsThisWeek
              c.metadata.starsThisMonth))
    ∧ (∀ t w m : Int, 0 ≤ t → 0 ≤ w → 0 ≤ m →
        ratTrunc (scoreValue t w m)
          = ⌊(0.6 : ℚ) * (t : ℚ) + (0.3 : ℚ) * ((w : ℚ) / 7)
              + (0.1 : ℚ) * ((m : ℚ) / 30)⌋)
    ∧ (calculateScores [repoScoreEx]).map (fun s => s.score) = [78] := by
  refine ⟨by simp [calculateScores], ?_, ?_, ?_, ?_, ?_⟩
  · simp only [calculateScores, List.getElem?_map, Option.map_map]
    cases repos[i]? <;> rfl
  · simp only [calculateScores, List.getElem?_map, Option.map_map]
    cases repos[i]? <;> rfl
  · simp only [calculateScores, List.getElem?_map, Option.map_map]
    cases repos[i]? <;> rfl
  · intro t w m ht hw hm
    rw [ratTrunc_eq_floor_of_nonneg _ (scoreValue_nonneg t w m ht hw hm)]
    congr 1
    unfold scoreValue
    ring
  · simp only [calculateScores, List.map_cons, List.map_nil, repoScoreEx, mkMeta]
    have h1 : scoreValue 100 350 900 = 78 := by unfold scoreValue; norm_num
    rw [h1]
    unfold ratTrunc
    rw [if_pos (by norm_num)]
    rw [show (78 : ℚ) = ((78 : ℤ) : ℚ) by norm_num, Int.floor_intCast]

/-- Witness for C3 at the example input: with non-negative counters the
truncated score equals the specified floor expression, evaluated at
`(100, 350, 900)`. -/
theorem calculateScores_spec_witness :
    ratTrunc (scoreValue 100 350 900)
      = ⌊(0.6 : ℚ) * ((100 : ℤ) : ℚ) + (0.3 : ℚ) * (((350 : ℤ) : ℚ) / 7)
          + (0.1 : ℚ) * (((900 : ℤ) : ℚ) / 30)⌋ :=
  (calculateScores_spec [] 0).2.2.2.2.1 100 350 900 (by decide) (by decide) (by decide)

theorem containsSub_iff (t sub : Str) : containsSub t sub = true ↔ sub <:+: t := by
  unfold containsSub
  rw [List.any_eq_true]
  constructor
  · rintro ⟨suffix, hmem, hpre⟩
    rw [List.mem_tails] at hmem
    rw [List.isPrefixOf_iff_prefix] at hpre
    exact List.infix_iff_prefix_suffix.mpr ⟨suffix, hpre, hmem⟩
  · intro h
    obtain ⟨tt, hpre, hsuf⟩ := List.infix_iff_prefix_suffix.mp h
    exact ⟨tt, (List.mem_tails _ _).mpr hsuf, List.isPrefixOf_iff_prefix.mpr hpre⟩

/-- C5: characterization of `matchesKeyword`.  Both arguments are
lowercased; a hyphenated keyword matches exactly when it is a substring
of the text; otherwise the text is split on whitespace, each token is
trimmed of surrounding punctuation, and the keyword matches exactly when
some token equals it, equals it followed by `s`, or — only for keywords
of length at least 4 — starts with it. -/
theorem matchesKeyword_spec (text keyword : Str) :
    matchesKeyword text keyword = true ↔
      (('-' ∈ toLowerStr keyword ∧ toLowerStr keyword <:+: toLowerStr text)
       ∨ ('-' ∉ toLowerStr keyword ∧
          ∃ w ∈ fields (toLowerStr text),
            trimCutset punctCutset w = toLowerStr keyword
            ∨ trimCutset punctCutset w = toLowerStr keyword ++ ['s']
            ∨ (4 ≤ (toLowerStr keyword).length
               ∧ toLowerStr keyword <+: trimCutset punctCutset w))) := by
  unfold matchesKeyword
  by_cases hh : '-' ∈ toLowerStr keyword
  · have hc : (toLowerStr keyword).contains '-' = true := by simpa using hh
    rw [hc, if_pos rfl, containsSub_iff]
    constructor
    · intro h
      exact Or.inl ⟨hh, h⟩
    · rintro (⟨_, h⟩ | ⟨hn, _⟩)
      · exact h
      · exact absurd hh hn
  · have hc : (toLowerStr keyword).contains '-' = false := by simpa using hh
    rw [hc]
    simp only [Bool.false_eq_true, if_false, List.any_eq_true, Bool.or_eq_true,
      Bool.and_eq_true, decide_eq_true_eq, List.isPrefixOf_iff_prefix]
    constructor
    · rintro ⟨w, hw, hcases⟩
      exact Or.inr ⟨hh, w, hw, or_assoc.mp hcases⟩
    · rintro (⟨habs, _⟩ | ⟨_, w, hw, hcases⟩)
      · exact absurd habs hh
      · exact ⟨w, hw, or_assoc.mpr hcases⟩

/-- Witness for C5 at a concrete input: the keyword `agent` stem-matches
the token `agentic`. -/
theorem matchesKeyword_spec_witness :
    matchesKeyword (str "Agentic AI") (str "agent") = true :=
  (matchesKeyword_spec (str "Agentic AI") (str "agent")).mpr (by decide)

theorem classify_map_metadata (kw : KeywordConfig) (repos : List RepoMetadata) :
    (classify kw repos).map ClassifiedRepo.metadata
      = repos.filter (fun r => matchesInclude kw r && !matchesExclude kw r) := by
  induction repos with
  | nil => rfl
  | cons a t ih =>
    simp only [classify] at ih ⊢
    rw [List.filterMap_cons, List.filter_cons]
    by_cases h : matchesInclude kw a && !matchesExclude kw a
    · simp only [h, if_true, List.map_cons]
      exact congrArg (a :: ·) ih
    · simp only [h, if_false]
      rw [Bool.not_eq_true] at h
      simp only [h, Bool.false_eq_true, if_false]
      exact ih

/-- C4: `Classify` keeps exactly, in input order, the repositories
matching at least one include keyword and no exclude keyword; others
are dropped silently; and with include `ai`, exclude `tutorial`, the
repo named `ai-tutorial` is excluded from the output. -/
theorem classify_spec (kw : KeywordConfig) (repos : List RepoMetadata) :
    (classify kw repos).map ClassifiedRepo.metadata
      = repos.filter (fun r => matchesInclude kw r && !matchesExclude kw r)
    ∧ (∀ r ∈ repos,
        ((∃ c ∈ classify kw repos, c.metadata = r) ↔
          ((∃ inc ∈ kw.Include, matchesKeyword (buildSearchText r) inc = true)
           ∧ ∀ exc ∈ kw.Exclude, matchesKeyword (buildSearchText r) exc = false)))
    ∧ classify cfgAI [repoAI] = [] := by
  refine ⟨classify_map_metadata kw repos, ?_, by decide⟩
  intro r hr
  have h1 : (∃ c ∈ classify kw repos, c.metadata = r)
      ↔ r ∈ (classify kw repos).map ClassifiedRepo.metadata := by
    rw [List.mem_map]
  rw [h1, classify_map_metadata, List.mem_filter]
  simp only [hr, true_and, Bool.and_eq_true, Bool.not_eq_true']
  rw [matchesInclude, matchesExclude, List.any_eq_true]
  constructor
  · rintro ⟨hi, he⟩
    refine ⟨hi, fun exc hexc => ?_⟩
    have := List.any_eq_false.mp he exc hexc
    simpa using this
  · rintro ⟨hi, he⟩
    refine ⟨hi, List.any_eq_false.mpr fun exc hexc => ?_⟩
    simpa using he exc hexc

/-- Witness for C4 at a concrete input: a repository matching the
include keyword `agent` and no exclude keyword appears in the output. -/
theorem classify_spec_witness :
    ∃ c ∈ classify cfgCatA [repoAgent], c.metadata = repoAgent :=
  ((classify_spec cfgCatA [repoAgent]).2.1 repoAgent (by decide)).mpr (by decide)

/-- C6: the primary category assigned by `Classify` depends on the
iteration order of the category map.  The two configurations below hold
the same category-to-keywords bindings (a permutation of one another),
yet enumerating them in opposite orders yields different primary
categories for the same repository, because ties in the match count are
resolved in favour of whichever assigned category was produced first by
the map iteration. -/
theorem selectPrimaryCategory_order_dependent :
    cfgCatA.Categories.Perm cfgCatB.Categories
    ∧ (classify cfgCatA [repoAgent]).map (fun c => c.primaryCategory) = [str "cat-a"]
    ∧ (classify cfgCatB [repoAgent]).map (fun c => c.primaryCategory) = [str "cat-b"]
    ∧ (classify cfgCatA [repoAgent]).map (fun c => c.primaryCategory)
        ≠ (classify cfgCatB [repoAgent]).map (fun c => c.primaryCategory) := by
  refine ⟨by decide, by decide, by decide, by decide⟩

/-- C7: `LoadHistory` returns the fresh empty history (empty map, empty
latest report) without error when no history file exists, and
propagates an error — rather than substituting an empty history — when
the file exists but cannot be read or parsed. -/
theorem loadHistory_spec :
    loadHistory .absent = .ok newHistory
    ∧ newHistory.latestReport = []
    ∧ (∀ k, newHistory.history k = none)
    ∧ loadHistory .unreadable = .error (str "failed to read history file")
    ∧ loadHistory .parseFailure = .error (str "failed to parse history file") :=
  ⟨rfl, rfl, fun _ => rfl, rfl, rfl⟩

theorem foldl_applyRepo_not_mem (r d : Str) (top : List ScoredRepo)
    (hm : Str → Option RepoHistory) (k : Str) (hk : k ∉ top.map ScoredRepo.key) :
    top.foldl (applyRepo r d) hm k = hm k := by
  induction top generalizing hm with
  | nil => rfl
  | cons t rest ih =>
    simp only [List.map_cons, List.mem_cons, not_or] at hk
    obtain ⟨hk1, hk2⟩ := hk
    rw [List.foldl_cons, ih _ (by simpa using hk2)]
    unfold applyRepo
    simp [hk1]

theorem foldl_applyRepo_mem (r d : Str) (top : List ScoredRepo)
    (hm : Str → Option RepoHistory) (k : Str)
    (hnd : (top.map ScoredRepo.key).Nodup) (hk : k ∈ top.map ScoredRepo.key) :
    top.foldl (applyRepo r d) hm k =
      match hm k with
      | some e =>
          some { e with
                  weeksInTop := e.weeksInTop + 1
                  lastSeenReport := r
                  lastSeenDate := d }
      | none => some ⟨1, r, d, r, d⟩ := by
  induction top generalizing hm with
  | nil => exact absurd hk (by simp)
  | cons t rest ih =>
    simp only [List.map_cons, List.nodup_cons] at hnd
    obtain ⟨hnd1, hnd2⟩ := hnd
    simp only [List.map_cons, List.mem_cons] at hk
    rw [List.foldl_cons]
    rcases hk with hk | hk
    · subst hk
      rw [foldl_applyRepo_not_mem _ _ _ _ _ (by simpa using hnd1)]
      unfold applyRepo
      simp
    · have hne : k ≠ t.key := fun hcontra => hnd1 (hcontra ▸ hk)
      have hbase : applyRepo r d hm t k = hm k := by
        unfold applyRepo
        simp [hne]
      rw [ih _ hnd2 hk, hbase]

/-- C1: provided the repo keys of `currentTop` are pairwise distinct,
`UpdateHistory` returns a history whose map holds exactly the keys of
`currentTop`: an existing entry keeps its first-seen fields, gets
`weeksInTop` incremented by 1, and has its last-seen fields overwritten
with the current report ID and date; a new key receives a fresh entry
with `weeksInTop = 1` and first-seen equal to last-seen equal to the
current values; keys absent from `currentTop` are deleted; and
`latestReport` is set to the current report ID. -/
theorem updateHistory_spec (h : History) (top : List ScoredRepo) (r d : Str)
    (hnd : (top.map ScoredRepo.key).Nodup) :
    (updateHistory h top r d).latestReport = r
    ∧ (∀ k, ((updateHistory h top r d).history k).isSome
        ↔ k ∈ top.map ScoredRepo.key)
    ∧ (∀ k, k ∉ top.map ScoredRepo.key → (updateHistory h top r d).history k = none)
    ∧ (∀ k e, k ∈ top.map ScoredRepo.key → h.history k = some e →
        (updateHistory h top r d).history k =
          some { e with
                  weeksInTop := e.weeksInTop + 1
                  lastSeenReport := r
                  lastSeenDate := d })
    ∧ (∀ k, k ∈ top.map ScoredRepo.key → h.history k = none →
        (updateHistory h top r d).history k = some ⟨1, r, d, r, d⟩) := by
  refine ⟨rfl, ?_, ?_, ?_, ?_⟩
  · intro k
    by_cases hk : k ∈ top.map ScoredRepo.key
    · simp only [updateHistory, hk, if_true]
      rw [foldl_applyRepo_mem _ _ _ _ _ hnd hk]
      cases h.history k <;> simp [hk]
    · simp only [updateHistory]
      rw [if_neg hk]
      simp [hk]
  · intro k hk
    simp only [updateHistory]
    rw [if_neg hk]
  · intro k e hk he
    simp only [updateHistory, hk, if_true]
    rw [foldl_applyRepo_mem _ _ _ _ _ hnd hk, he]
  · intro k hk he
    simp only [updateHistory, hk, if_true]
    rw [foldl_applyRepo_mem _ _ _ _ _ hnd hk, he]

/-- Witness for C1 at the worked example of the specification: updating
an empty history with `owner1/repo1` under report `2024-01-week1` of
`2024-01-07` creates the fresh streak record. -/
theorem updateHistory_spec_witness :
    (updateHistory newHistory [scoredOwner1] (str "2024-01-week1")
        (str "2024-01-07")).history (str "owner1/repo1")
      = some ⟨1, str "2024-01-week1", str "2024-01-07",
          str "2024-01-week1", str "2024-01-07"⟩ :=
  (updateHistory_spec newHistory [scoredOwner1] (str "2024-01-week1")
      (str "2024-01-07") (by decide)).2.2.2.2 (str "owner1/repo1") (by decide) rfl

/-- Counterexample to C1 as stated for arbitrary `currentTop` lists: a
top list holding the same key twice leaves a fresh key with
`weeksInTop = 2`, not the fresh record with `weeksInTop = 1` the claim
requires. -/
theorem updateHistory_duplicate_key_counterexample :
    (updateHistory newHistory [scoredDup, scoredDup] (str "r1") (str "d1")).history
        (str "o/n")
      = some ⟨2, str "r1", str "d1", str "r1", str "d1"⟩
    ∧ (updateHistory newHistory [scoredDup, scoredDup] (str "r1") (str "d1")).history
        (str "o/n")
      ≠ some ⟨1, str "r1", str "d1", str "r1", str "d1"⟩ := by
  refine ⟨by decide, by decide⟩

theorem applyRepo_bound (r d : Str) (hm : Str → Option RepoHistory) (repo : ScoredRepo)
    (hinv : ∀ k e, hm k = some e →
      e.firstSeenDate ≤ e.lastSeenDate ∧ e.lastSeenDate ≤ d) :
    ∀ k e, applyRepo r d hm repo k = some e →
      e.firstSeenDate ≤ e.lastSeenDate ∧ e.lastSeenDate ≤ d := by
  intro k e he
  unfold applyRepo at he
  by_cases hk : k = repo.key
  · rw [if_pos hk] at he
    cases hh : hm repo.key with
    | some e0 =>
      rw [hh] at he
      obtain ⟨h1, h2⟩ := hinv repo.key e0 hh
      cases he
      exact ⟨le_trans h1 h2, le_refl d⟩
    | none =>
      rw [hh] at he
      cases he
      exact ⟨le_refl d, le_refl d⟩
  · rw [if_neg hk] at he
    exact hinv k e he

theorem foldl_applyRepo_bound (r d : Str) (top : List ScoredRepo)
    (hm : Str → Option RepoHistory)
    (hinv : ∀ k e, hm k = some e →
      e.firstSeenDate ≤ e.lastSeenDate ∧ e.lastSeenDate ≤ d) :
    ∀ k e, top.foldl (applyRepo r d) hm k = some e →
      e.firstSeenDate ≤ e.lastSeenDate ∧ e.lastSeenDate ≤ d := by
  induction top generalizing hm with
  | nil => exact hinv
  | cons t rest ih =>
    intro k e he
    rw [List.foldl_cons] at he
    exact ih (applyRepo r d hm t) (applyRepo_bound r d hm t hinv) k e he

theorem updateHistory_bound (h : History) (top : List ScoredRepo) (r d d0 : Str)
    (hd : d0 ≤ d)
    (hinv : ∀ k e, h.history k = some e →
      e.firstSeenDate ≤ e.lastSeenDate ∧ e.lastSeenDate ≤ d0) :
    ∀ k e, (updateHistory h top r d).history k = some e →
      e.firstSeenDate ≤ e.lastSeenDate ∧ e.lastSeenDate ≤ d := by
  intro k e he
  simp only [updateHistory] at he
  by_cases hk : k ∈ top.map ScoredRepo.key
  · rw [if_pos hk] at he
    refine foldl_applyRepo_bound r d top h.history ?_ k e he
    intro k0 e0 he0
    obtain ⟨h1, h2⟩ := hinv k0 e0 he0
    exact ⟨h1, le_trans h2 hd⟩
  · rw [if_neg hk] at he
    exact absurd he (by simp)

theorem runUpdates_bound (steps : List (List ScoredRepo × Str × Str)) (h : History)
    (d0 : Str)
    (hinv : ∀ k e, h.history k = some e →
      e.firstSeenDate ≤ e.lastSeenDate ∧ e.lastSeenDate ≤ d0)
    (hmono : datesMonoB (d0 :: steps.map (fun s => s.2.2)) = true) :
    ∀ k e, (runUpdates h steps).history k = some e →
      e.firstSeenDate ≤ e.lastSeenDate := by
  induction steps generalizing h d0 with
  | nil =>
    intro k e he
    exact (hinv k e he).1
  | cons s rest ih =>
    simp only [List.map_cons, datesMonoB, Bool.and_eq_true, decide_eq_true_eq] at hmono
    obtain ⟨hle, hmono2⟩ := hmono
    intro k e he
    simp only [runUpdates, List.foldl_cons] at he
    exact ih (updateHistory h s.1 s.2.1 s.2.2) s.2.2
      (updateHistory_bound h s.1 s.2.1 s.2.2 d0 hle hinv) hmono2 k e he

/-- C8 (amended): along any run of `UpdateHistory` cycles starting from
the empty bootstrap history whose report dates are non-decreasing, every
entry of the resulting history map satisfies
`first_seen_date <= last_seen_date`. -/
theorem history_invariant_monotone (steps : List (List ScoredRepo × Str × Str))
    (hmono : datesMonoB (steps.map (fun s => s.2.2)) = true) :
    ∀ k e, (runUpdates newHistory steps).history k = some e →
      e.firstSeenDate ≤ e.lastSeenDate := by
  cases steps with
  | nil =>
    intro k e he
    simp [runUpdates, newHistory] at he
  | cons s rest =>
    refine runUpdates_bound (s :: rest) newHistory s.2.2 ?_ ?_
    · intro k e he
      simp [newHistory] at he
    · simp only [List.map_cons] at hmono ⊢
      simp [datesMonoB, hmono]

/-- Witness for C8 at a concrete run: two consecutive updates with
non-decreasing dates leave the streak entry with its first-seen date
below its last-seen date. -/
theorem history_invariant_monotone_witness :
    (str "2024-01-07" : Str) ≤ str "2024-01-14" :=
  history_invariant_monotone stepsGood (by decide) (str "owner1/repo1")
    ⟨2, str "r2", str "2024-01-14", str "r1", str "2024-01-07"⟩ (by decide)

/-- Counterexample to C8 as stated for arbitrary report dates: updating
with a report date earlier than the previous one produces an entry whose
first-seen date exceeds its last-seen date. -/
theorem history_invariant_counterexample :
    (runUpdates newHistory stepsBad).history (str "owner1/repo1")
      = some ⟨2, str "r2", str "2024-01-01", str "r1", str "2024-02-02"⟩
    ∧ ¬ ((str "2024-02-02" : Str) ≤ str "2024-01-01") := by
  refine ⟨by decide, by decide⟩

/-- C9: `identifyRepeaters` emits exactly the top repos whose key has a
history entry with `weeksInTop >= 2`, carrying the key, name, URL, that
`weeksInTop`, the current heat7 and the primary category; a repo whose
key is absent from the history map is never emitted. -/
theorem identifyRepeaters_spec (repos : List ScoredRepo) (h : History) :
    (∀ info, info ∈ identifyRepeaters repos h →
      ∃ repo ∈ repos, ∃ e, h.history repo.key = some e ∧ 2 ≤ e.weeksInTop
        ∧ info = repeaterInfoOf repo e)
    ∧ (∀ repo ∈ repos, ∀ e, h.history repo.key = some e → 2 ≤ e.weeksInTop →
        repeaterInfoOf repo e ∈ identifyRepeaters repos h)
    ∧ (∀ info ∈ identifyRepeaters repos h, (h.history info.repoKey).isSome = true) := by
  have hpart1 : ∀ info, info ∈ identifyRepeaters repos h →
      ∃ repo ∈ repos, ∃ e, h.history repo.key = some e ∧ 2 ≤ e.weeksInTop
        ∧ info = repeaterInfoOf repo e := by
    intro info hinfo
    rw [identifyRepeaters, List.mem_filterMap] at hinfo
    obtain ⟨repo, hrepo, hf⟩ := hinfo
    cases hh : h.history repo.key with
    | some e =>
      rw [hh] at hf
      have hf2 : (if 2 ≤ e.weeksInTop then some (repeaterInfoOf repo e) else none)
          = some info := hf
      by_cases h2 : 2 ≤ e.weeksInTop
      · rw [if_pos h2] at hf2
        exact ⟨repo, hrepo, e, hh, h2, (Option.some.inj hf2).symm⟩
      · rw [if_neg h2] at hf2
        exact absurd hf2 (by simp)
    | none =>
      rw [hh] at hf
      exact absurd hf (by simp)
  refine ⟨hpart1, ?_, ?_⟩
  · intro repo hrepo e he h2
    rw [identifyRepeaters, List.mem_filterMap]
    refine ⟨repo, hrepo, ?_⟩
    show (match h.history repo.key with
      | some e => if 2 ≤ e.weeksInTop then some (repeaterInfoOf repo e) else none
      | none => none) = some (repeaterInfoOf repo e)
    rw [he]
    exact if_pos h2
  · intro info hinfo
    obtain ⟨repo, _, e, he, _, hie⟩ := hpart1 info hinfo
    rw [hie]
    show (h.history (repeaterInfoOf repo e).repoKey).isSome = true
    rw [show (repeaterInfoOf repo e).repoKey = repo.key from rfl, he]
    rfl

/-- Witness for C9 at a concrete input: a repo tracked for three weeks
is emitted as a repeater. -/
theorem identifyRepeaters_spec_witness :
    repeaterInfoOf sRep ⟨3, str "r0", str "2024-01-07", str "rX", str "2024-01-01"⟩
      ∈ identifyRepeaters [sRep] histW :=
  (identifyRepeaters_spec [sRep] histW).2.1 sRep (by decide)
    ⟨3, str "r0", str "2024-01-07", str "rX", str "2024-01-01"⟩ (by decide) (by decide)

/-- C10: the ranking functions never mutate their input slice: they
allocate and sort a copy, so after the call the caller's slot still
holds the same elements in the same order, while the returned slice is
the ranked (and truncated) copy. -/
theorem rank_no_mutation (h : GoHeap) (p n : Nat) (hp : p < h.slots.length) :
    readSlot (rankRepositoriesGo h p).1 p = readSlot h p
    ∧ readSlot (rankAndSelectTopGo h p n).1 p = readSlot h p
    ∧ readSlot (rankRepositoriesGo h p).1 (rankRepositoriesGo h p).2
        = rankRepositories (readSlot h p)
    ∧ (rankAndSelectTopGo h p n).2 = rankAndSelectTop (readSlot h p) n := by
  have hv : readSlot (⟨h.slots ++ [readSlot h p]⟩ : GoHeap) h.slots.length
      = readSlot h p := by
    simp [readSlot]
  have hframe : readSlot (rankRepositoriesGo h p).1 p = readSlot h p := by
    show (((h.slots ++ [readSlot h p]).set h.slots.length _)[p]?).getD [] = _
    rw [List.getElem?_set_ne (Nat.ne_of_lt hp).symm]
    simp [readSlot, List.getElem?_append, hp]
  have hout : readSlot (rankRepositoriesGo h p).1 (rankRepositoriesGo h p).2
      = rankRepositories (readSlot h p) := by
    show (((h.slots ++ [readSlot h p]).set h.slots.length
        ((readSlot (⟨h.slots ++ [readSlot h p]⟩ : GoHeap) h.slots.length).mergeSort
          rankLE))[h.slots.length]?).getD [] = _
    rw [hv]
    rw [List.getElem?_set_self (by simp)]
    rfl
  refine ⟨hframe, hframe, hout, ?_⟩
  show (if (readSlot (rankRepositoriesGo h p).1 (rankRepositoriesGo h p).2).length > n
      then (readSlot (rankRepositoriesGo h p).1 (rankRepositoriesGo h p).2).take n
      else readSlot (rankRepositoriesGo h p).1 (rankRepositoriesGo h p).2)
    = rankAndSelectTop (readSlot h p) n
  rw [hout]
  rfl

/-- Witness for C10 at a concrete heap: ranking leaves the caller's slot
untouched. -/
theorem rank_no_mutation_witness :
    readSlot (rankRepositoriesGo heapW 0).1 0 = readSlot heapW 0 :=
  (rank_no_mutation heapW 0 1 (by decide)).1
